import Mathlib

/-!
Verification of the telegramollama repository: a shallow embedding of the
bot's chunked message formatter (`_split_text_preserve_markdown`,
`_escape_markdown_v2`), its model-resolution and delivery logic, and the
Flask service's conversation/size-formatting logic, with theorems settling
the specification claims.

Text is modelled as `List Char`.  The splitting loop of the source is not
structurally terminating (and indeed does not terminate on some inputs), so
it is embedded with an explicit fuel parameter: `none` means the loop was
still running when the fuel ran out.
-/

/-- The backtick character, written via its code point. -/
def backtick : Char := Char.ofNat 96

/-- A triple-backtick fence marker. -/
def tick3 : List Char := [backtick, backtick, backtick]

/-- `MAX_MESSAGE_LENGTH = 4000` from `_split_text_preserve_markdown`. -/
def MAXLEN : Nat := 4000

/-- The paragraph separator searched for by the splitter. -/
def nn : List Char := ['\n', '\n']

/-- The sentence separator searched for by the splitter. -/
def dotSp : List Char := ['.', ' ']

/-- Positions of the non-overlapping, leftmost-first matches of a
triple-backtick marker, as computed by the source's
`re.finditer(r(three backticks), remaining_text)`. -/
def tickPositions : List Char → Nat → List Nat
  | c1 :: c2 :: c3 :: rest, pos =>
    if c1 = backtick ∧ c2 = backtick ∧ c3 = backtick then
      pos :: tickPositions rest (pos + 3)
    else
      tickPositions (c2 :: c3 :: rest) (pos + 1)
  | _, _ => []

/-- Accumulator pass for Python's `str.rfind(sub, 0, stop)`: scans left to
right, remembering the last position where `sub` occurs with the match
ending at or before `stop`. -/
def rfindAux (sub : List Char) (stop : Nat) : List Char → Nat → Option Nat → Option Nat
  | [], _, acc => acc
  | x :: rest, pos, acc =>
    rfindAux sub stop rest (pos + 1)
      (if pos + sub.length ≤ stop ∧ sub.isPrefixOf (x :: rest) then some pos else acc)

/-- Python's `text.rfind(sub, 0, stop)`: the largest index where `sub`
occurs entirely inside `text[0:stop]`, or `-1` when there is none. -/
def rfindI (sub text : List Char) (stop : Nat) : Int :=
  match rfindAux sub stop text 0 none with
  | some i => (i : Int)
  | none => -1

/-- The cut point chosen by the no-code-block branch of the splitter
(lines 301-316 of the source): `MAX_MESSAGE_LENGTH`, moved back to a
paragraph break or, failing that, a sentence break found in the second
half of the window. -/
def plainCut (r : List Char) : Nat :=
  if rfindI nn r MAXLEN > (MAXLEN : Int) / 2 then (rfindI nn r MAXLEN + 2).toNat
  else if rfindI dotSp r MAXLEN > (MAXLEN : Int) / 2 then (rfindI dotSp r MAXLEN + 2).toNat
  else MAXLEN

/-- The cut point chosen after the code-block scan finishes without a
break (lines 339-346 of the source): like `plainCut` but without the
sentence-boundary search. -/
def fallbackCut (r : List Char) : Nat :=
  if rfindI nn r MAXLEN > (MAXLEN : Int) / 2 then (rfindI nn r MAXLEN + 2).toNat
  else MAXLEN

/-- The cut point chosen when a code block straddles the limit
(lines 326-330 of the source): the last paragraph break before the block
start, unless it is at position `<= 0` or in the first half, in which case
the block start itself. -/
def codeCut (r : List Char) (s : Nat) : Nat :=
  if rfindI nn r s ≤ 0 ∨ rfindI nn r s < (MAXLEN : Int) / 2 then s
  else (rfindI nn r s).toNat

/-- The inner `while i < len(code_block_starts) - 1` loop (lines 319-336):
inspects the marker positions pairwise, two at a time, and returns the cut
point of the first pair that straddles `MAX_MESSAGE_LENGTH`, or `none`
when the loop runs off the end of the list. -/
def codeBlockScan (r : List Char) : List Nat → Option Nat
  | s :: e :: rest =>
    if s < MAXLEN ∧ MAXLEN < e then some (codeCut r s) else codeBlockScan r rest
  | _ => none

/-- The cut point of one iteration of the outer splitting loop for a
remainder longer than `MAX_MESSAGE_LENGTH`.  When the code-block branch
chooses a cut via `break`, the loop counter is still below
`len(code_block_starts) - 1`, so the final guard at line 339 is skipped
and no fall-through cut happens; the fall-through applies only when the
pairwise scan runs off the end of the marker list. -/
def splitCutOf (r : List Char) : Nat :=
  if (tickPositions r 0).length < 2 then plainCut r
  else
    match codeBlockScan r (tickPositions r 0) with
    | some c => c
    | none => fallbackCut r

/-- The pair (emitted chunk, new remainder) of one outer-loop iteration. -/
def splitStep (r : List Char) : List Char × List Char :=
  (r.take (splitCutOf r), r.drop (splitCutOf r))

/-- The outer `while remaining_text:` loop with explicit fuel; `none`
means the loop had not finished when the fuel ran out. -/
def splitGo : Nat → List Char → Option (List (List Char))
  | 0, _ => none
  | fuel + 1, r =>
    if r.isEmpty then some []
    else if r.length ≤ MAXLEN then some [r]
    else (splitGo fuel (splitStep r).2).map (fun cs => (splitStep r).1 :: cs)

/-- `_split_text_preserve_markdown`: short texts are returned whole,
longer ones go through the splitting loop. -/
def split_text_preserve_markdown (fuel : Nat) (text : List Char) :
    Option (List (List Char)) :=
  if text.length ≤ MAXLEN then some [text]
  else splitGo fuel text

/-- Python's `text.split(sep)` for the triple-backtick separator, scanning
left to right and splitting at each leftmost non-overlapping occurrence;
`cur` accumulates the current piece in reverse. -/
def splitTicks : List Char → List Char → List (List Char)
  | cur, a :: b :: c :: rest =>
    if a = backtick ∧ b = backtick ∧ c = backtick then
      cur.reverse :: splitTicks [] rest
    else
      splitTicks (a :: cur) (b :: c :: rest)
  | cur, l => [cur.reverse ++ l]

/-- Python's `str.replace` for a single-character pattern: every
occurrence of `c` is replaced by `repl`. -/
def replaceChar (c : Char) (repl : List Char) : List Char → List Char
  | [] => []
  | x :: xs => if x = c then repl ++ replaceChar c repl xs else x :: replaceChar c repl xs

/-- The 18-character MarkdownV2 escape set of `_escape_markdown_v2`
(braces and the backtick written via their code points). -/
def escape_chars : List Char :=
  ['_', '*', '[', ']', '(', ')', '~', backtick, '>', '#', '+', '-', '=', '|',
   Char.ofNat 123, Char.ofNat 125, '.', '!']

/-- Whitespace as removed by Python's `str.strip()` (ASCII range). -/
def isPyWhitespace (c : Char) : Bool :=
  c = ' ' ∨ c = Char.ofNat 9 ∨ c = '\n' ∨ c = Char.ofNat 13 ∨
    c = Char.ofNat 11 ∨ c = Char.ofNat 12

/-- Python's `str.strip()`: drop leading and trailing whitespace. -/
def pyStrip (l : List Char) : List Char :=
  ((l.dropWhile isPyWhitespace).reverse.dropWhile isPyWhitespace).reverse

/-- Python's `str.split(newline, 1)` restricted to the information used by
the source: `some (before, after)` when the text contains a newline. -/
def splitNl : List Char → Option (List Char × List Char)
  | [] => none
  | c :: rest =>
    if c = '\n' then some ([], rest)
    else (splitNl rest).map (fun p => (c :: p.1, p.2))

/-- The odd-index (inside-fence) branch of `_escape_markdown_v2`: when the
stripped content has a first line (a language tag) and further lines, the
part is replaced by `lang ++ newline ++ code`, i.e. by its stripped form;
otherwise it is left unchanged. -/
def normalize_code_part (p : List Char) : List Char :=
  match splitNl (pyStrip p) with
  | some (lang, code) => if lang ≠ [] then lang ++ '\n' :: code else p
  | none => p

/-- The even-index (outside-fence) branch of `_escape_markdown_v2`: for
each character of the escape set in order, replace it everywhere by a
backslash followed by that character. -/
def escape_part (p : List Char) : List Char :=
  escape_chars.foldl (fun acc c => replaceChar c ['\\', c] acc) p

/-- The indexed loop of `_escape_markdown_v2`: even parts are escaped,
odd parts (inside code fences) are normalized. -/
def escapeParts : Nat → List (List Char) → List (List Char)
  | _, [] => []
  | i, p :: rest =>
    (if i % 2 = 0 then escape_part p else normalize_code_part p) :: escapeParts (i + 1) rest

/-- Python's `(triple-backtick).join(parts)`. -/
def joinTicks : List (List Char) → List Char
  | [] => []
  | [p] => p
  | p :: q :: rest => p ++ tick3 ++ joinTicks (q :: rest)

/-- `_escape_markdown_v2`: split at fence markers, escape outside and
normalize inside, rejoin with fence markers. -/
def escape_markdown_v2 (text : List Char) : List Char :=
  joinTicks (escapeParts 0 (splitTicks [] text))

/-- The number of non-overlapping triple-backtick fence markers in a text,
counted left to right exactly as the splitting and escaping code sees
them. -/
def fence_count (t : List Char) : Nat := (tickPositions t 0).length

/-! ## Delivery loop of `handle_message` (lines 237-267) -/

/-- The two Telegram send configurations the source actually uses: the
escaped chunk with `parse_mode = MarkdownV2`, and the raw chunk with no
parse mode. -/
inductive SendMode
  | markdownV2
  | plain
deriving DecidableEq, Repr

/-- Observable events of the delivery loop: a send attempt for a fragment
index with its mode, the exact payload handed to the transport and the
outcome, or the single partial-failure notice. -/
inductive DeliverEvent
  | attempt (idx : Nat) (mode : SendMode) (payload : List Char) (ok : Bool)
  | failNotice
deriving DecidableEq, Repr

/-- The fragment delivery loop of `handle_message`: for each chunk, send
the escaped form as MarkdownV2; on failure resend the raw chunk with no
parse mode; if that also fails, emit the failure notice and `break`,
abandoning the remaining chunks.  `ok` is the transport oracle: whether a
given attempt (by fragment index and mode) succeeds. -/
def deliver_chunks (ok : Nat → SendMode → Bool) : Nat → List (List Char) → List DeliverEvent
  | _, [] => []
  | i, c :: rest =>
    if ok i SendMode.markdownV2 then
      DeliverEvent.attempt i SendMode.markdownV2 (escape_markdown_v2 c) true ::
        deliver_chunks ok (i + 1) rest
    else if ok i SendMode.plain then
      DeliverEvent.attempt i SendMode.markdownV2 (escape_markdown_v2 c) false ::
        DeliverEvent.attempt i SendMode.plain c true ::
        deliver_chunks ok (i + 1) rest
    else
      [DeliverEvent.attempt i SendMode.markdownV2 (escape_markdown_v2 c) false,
       DeliverEvent.attempt i SendMode.plain c false,
       DeliverEvent.failNotice]

/-- The ordered list of modes attempted for fragment `i` in a trace. -/
def attempt_modes (i : Nat) : List DeliverEvent → List SendMode
  | [] => []
  | DeliverEvent.attempt j m _ _ :: rest =>
    if j = i then m :: attempt_modes i rest else attempt_modes i rest
  | DeliverEvent.failNotice :: rest => attempt_modes i rest

/-- The number of partial-failure notices in a trace. -/
def notice_count : List DeliverEvent → Nat
  | [] => 0
  | DeliverEvent.failNotice :: rest => notice_count rest + 1
  | DeliverEvent.attempt _ _ _ _ :: rest => notice_count rest

/-! ## Model registry: `ensure_model_exists` and `get_user_model` -/

/-- `DEFAULT_MODEL = "mistral"`. -/
def DEFAULT_MODEL : String := "mistral"

/-- The backend as seen over HTTP by the bot: the outcome of
`GET /models` (success flag and model names in listing order) and of
`POST /models/pull/{name}` for each name. -/
structure Backend where
  modelsSuccess : Bool
  models : List String
  pullSuccess : String → Bool

/-- `ensure_model_exists`: list the models; on listing failure report
failure; if the name is present report success without pulling; otherwise
pull it and report the pull's outcome.  The second component records
whether a pull request was issued. -/
def ensure_model_exists (b : Backend) (model_name : String) : Bool × Bool :=
  if b.modelsSuccess = false then (false, false)
  else if model_name ∈ b.models then (true, false)
  else (b.pullSuccess model_name, true)

/-- `get_user_model` for a user whose current selection is `current`
(`none` for a brand-new user): keep an existing selection; otherwise
ensure the default model, falling back to the first listed model, and fail
with "No models available" when neither works.  The boolean records
whether a pull request was issued on the way. -/
def get_user_model (b : Backend) (current : Option String) : Except String (String × Bool) :=
  match current with
  | some m => Except.ok (m, false)
  | none =>
    if (ensure_model_exists b DEFAULT_MODEL).1 then
      Except.ok (DEFAULT_MODEL, (ensure_model_exists b DEFAULT_MODEL).2)
    else
      match b.modelsSuccess, b.models with
      | true, m :: _ => Except.ok (m, (ensure_model_exists b DEFAULT_MODEL).2)
      | _, _ => Except.error "No models available"

/-! ## Conversation store: `OllamaService.chat` and `clear_chat_history` -/

/-- One conversation message. -/
structure ChatMsg where
  role : String
  content : String
deriving DecidableEq, Repr

/-- Look up a session's history in the store (a Python dict modelled as an
association list). -/
def lookupConv (convs : List (String × List ChatMsg)) (sid : String) : Option (List ChatMsg) :=
  (convs.find? (fun p => p.1 = sid)).map Prod.snd

/-- Dict assignment `conversations[sid] = h`: overwrite the existing entry
or append a new one. -/
def updateConv : List (String × List ChatMsg) → String → List ChatMsg → List (String × List ChatMsg)
  | [], sid, h => [(sid, h)]
  | (k, v) :: rest, sid, h =>
    if k = sid then (sid, h) :: rest else (k, v) :: updateConv rest sid h

/-- The message sequence a session observes: its stored history, or empty
when the session key is absent. -/
def historyOf (convs : List (String × List ChatMsg)) (sid : String) : List ChatMsg :=
  (lookupConv convs sid).getD []

/-- `OllamaService.chat`: initialize the session with an empty history if
absent, call the model on history plus the new user message
(`ollamaReply` is the oracle for that external call, `none` meaning it
raised), and only on success append the user/assistant pair.  Returns the
new store and the success flag. -/
def svc_chat (ollamaReply : Option String) (convs : List (String × List ChatMsg))
    (model_name message sid : String) : List (String × List ChatMsg) × Bool :=
  match ollamaReply,
      (if (lookupConv convs sid).isSome then convs else updateConv convs sid []) with
  | none, convs1 => (convs1, false)
  | some reply, convs1 =>
    (updateConv convs1 sid
      (historyOf convs1 sid ++ [⟨"user", message⟩, ⟨"assistant", reply⟩]), true)

/-- `OllamaService.clear_chat_history`: reset an existing session's
history to the empty sequence (the key is kept, not deleted) and report
success whether or not the session existed. -/
def svc_clear_chat_history (convs : List (String × List ChatMsg)) (sid : String) :
    List (String × List ChatMsg) × Bool :=
  (if (lookupConv convs sid).isSome then updateConv convs sid [] else convs, true)

/-! ## Size formatting in `OllamaService.list_models` -/

/-- One gibibyte, `1024 * 1024 * 1024`, as an exact rational. -/
def GiB : ℚ := 1024 * 1024 * 1024

/-- Round-half-to-even to the nearest integer, the tie-breaking rule of
Python's `round`. -/
def roundHalfEven (q : ℚ) : Int :=
  if q - Int.floor q < 1 / 2 then Int.floor q
  else if q - Int.floor q > 1 / 2 then Int.floor q + 1
  else if Even (Int.floor q) then Int.floor q else Int.floor q + 1

/-- Python's `round(q, 2)` modelled exactly on rationals. -/
def round2 (q : ℚ) : ℚ := (roundHalfEven (q * 100) : ℚ) / 100

/-- The size field computed at line 40 of the service:
`round(size / (1024*1024*1024), 2) if size else "N/A"`, with `none`
standing for the `"N/A"` sentinel.  Python truthiness makes exactly the
byte count `0` fall to the sentinel. -/
def format_size (size : Int) : Option ℚ :=
  if size = 0 then none else some (round2 ((size : ℚ) / GiB))

/-- `model.get("size", 0)`: a missing size field defaults to `0`. -/
def entry_size (s : Option Int) : Int := s.getD 0

/-- The formatting loop of `OllamaService.list_models` over the listed
models (name together with optional raw byte count). -/
def list_models (ms : List (String × Option Int)) : List (String × Option ℚ) :=
  ms.map (fun p => (p.1, format_size (entry_size p.2)))

/-! ## Concrete inputs used by counterexamples and witnesses -/

/-- A fenced code block opening at position 0 whose closing marker lies
beyond `MAX_MESSAGE_LENGTH`: the input on which the splitting loop makes
no progress. -/
def badLoop : List Char := tick3 ++ List.replicate 3998 'a' ++ tick3

/-- A long text whose remainder after the one cut is whitespace-only. -/
def wsText : List Char := List.replicate 4000 'a' ++ nn

/-- A text with a single fenced code block spanning characters 3900-4200:
`3900` letters, a fence, `297` letters, a fence, `100` letters. -/
def c4text : List Char :=
  List.replicate 3900 'a' ++ tick3 ++ List.replicate 297 'b' ++ tick3 ++
    List.replicate 100 'c'

/-- The part of `c4text` after the block-start cut at position 3900. -/
def c4tail : List Char :=
  tick3 ++ List.replicate 297 'b' ++ tick3 ++ List.replicate 100 'c'

/-- A short fragment consisting entirely of characters from the escape
set: its escaped form doubles in length. -/
def dots3000 : List Char := List.replicate 3000 '.'

/-- A text on which escaping changes the fence-marker count: the
language-tag normalization strips whitespace around backtick runs inside
two fenced parts, merging them with the separators into a run of ten
backticks. -/
def fenceCex : List Char :=
  tick3 ++ ['x', '\n', backtick, backtick, ' '] ++ tick3 ++ tick3 ++
    [' ', backtick, backtick, 'b', '\n', 'c']

/-! ## Helper lemmas about the fence scanner and the backward search -/

theorem tickPositions_nil (pos : Nat) : tickPositions [] pos = [] := by
  simp [tickPositions]

theorem tickPositions_cons_ne (c : Char) (hc : c ≠ backtick) (l : List Char) (pos : Nat) :
    tickPositions (c :: l) pos = tickPositions l (pos + 1) := by
  match l with
  | [] => simp [tickPositions]
  | [x] => simp [tickPositions]
  | x :: y :: rest => simp [tickPositions, hc]

theorem tickPositions_replicate (c : Char) (hc : c ≠ backtick) :
    ∀ (n : Nat) (tail : List Char) (pos : Nat),
      tickPositions (List.replicate n c ++ tail) pos = tickPositions tail (pos + n)
  | 0, tail, pos => by simp
  | n + 1, tail, pos => by
    rw [List.replicate_succ, List.cons_append, tickPositions_cons_ne c hc,
      tickPositions_replicate c hc n tail (pos + 1)]
    ring_nf

theorem tickPositions_tick3 (tail : List Char) (pos : Nat) :
    tickPositions (tick3 ++ tail) pos = pos :: tickPositions tail (pos + 3) := by
  simp [tick3, tickPositions]

theorem rfindAux_past_stop (sub : List Char) (stop : Nat) :
    ∀ (l : List Char) (pos : Nat) (acc : Option Nat), stop < pos + sub.length →
      rfindAux sub stop l pos acc = acc
  | [], _, _, _ => rfl
  | x :: rest, pos, acc, h => by
    rw [rfindAux, if_neg (by rintro ⟨h1, -⟩; omega)]
    exact rfindAux_past_stop sub stop rest (pos + 1) acc (by omega)

theorem rfindAux_replicate (d : Char) (sub' : List Char) (stop : Nat) (c : Char)
    (hdc : d ≠ c) :
    ∀ (n : Nat) (tail : List Char) (pos : Nat) (acc : Option Nat),
      rfindAux (d :: sub') stop (List.replicate n c ++ tail) pos acc =
        rfindAux (d :: sub') stop tail (pos + n) acc
  | 0, tail, pos, acc => by simp
  | n + 1, tail, pos, acc => by
    rw [List.replicate_succ, List.cons_append, rfindAux]
    rw [if_neg (by simp [List.isPrefixOf, hdc])]
    rw [rfindAux_replicate d sub' stop c hdc n tail (pos + 1) acc]
    ring_nf

theorem rfindAux_good (sub text : List Char) (stop : Nat) :
    ∀ (l : List Char) (pos : Nat) (acc : Option Nat),
      l = text.drop pos →
      (∀ j, acc = some j → j + sub.length ≤ stop ∧ sub.isPrefixOf (text.drop j) = true) →
      ∀ i, rfindAux sub stop l pos acc = some i →
        i + sub.length ≤ stop ∧ sub.isPrefixOf (text.drop i) = true
  | [], _, acc, _, hacc, i, h => hacc i h
  | x :: rest, pos, acc, hl, hacc, i, h => by
    rw [rfindAux] at h
    refine rfindAux_good sub text stop rest (pos + 1) _ ?_ ?_ i h
    · have ht : (x :: rest).tail = (text.drop pos).tail := by rw [hl]
      simpa [List.tail_drop] using ht
    · intro j hj
      by_cases hcond : pos + sub.length ≤ stop ∧ sub.isPrefixOf (x :: rest) = true
      · rw [if_pos (by exact_mod_cast hcond)] at hj
        cases hj
        exact ⟨hcond.1, by rw [← hl]; exact hcond.2⟩
      · rw [if_neg (by exact_mod_cast hcond)] at hj
        exact hacc j hj

theorem rfindI_cases (sub text : List Char) (stop : Nat) :
    rfindI sub text stop = -1 ∨
      ∃ i : Nat, rfindI sub text stop = (i : Int) ∧ i + sub.length ≤ stop ∧
        sub.isPrefixOf (text.drop i) = true := by
  unfold rfindI
  cases h : rfindAux sub stop text 0 none with
  | none => exact Or.inl rfl
  | some i =>
    refine Or.inr ⟨i, rfl, ?_⟩
    exact rfindAux_good sub text stop text 0 none (by simp) (by simp) i h

/-! ## Bounds on the cut points chosen by the splitter -/

theorem plainCut_le (r : List Char) : plainCut r ≤ MAXLEN := by
  have h2 : (if rfindI dotSp r MAXLEN > (MAXLEN : Int) / 2 then
      (rfindI dotSp r MAXLEN + 2).toNat else MAXLEN) ≤ MAXLEN := by
    rcases rfindI_cases dotSp r MAXLEN with h | ⟨j, h, hle, _⟩ <;> rw [h]
    · rw [if_neg (by decide)]
    · split
      · simp only [dotSp, List.length_cons, List.length_nil] at hle
        omega
      · exact le_refl _
  unfold plainCut
  rcases rfindI_cases nn r MAXLEN with h | ⟨i, h, hle, _⟩ <;> rw [h]
  · rw [if_neg (by decide)]
    exact h2
  · split
    · simp only [nn, List.length_cons, List.length_nil] at hle
      omega
    · exact h2

theorem fallbackCut_le (r : List Char) : fallbackCut r ≤ MAXLEN := by
  unfold fallbackCut
  rcases rfindI_cases nn r MAXLEN with h | ⟨i, h, hle, _⟩ <;> rw [h]
  · rw [if_neg (by decide)]
  · split
    · simp only [nn, List.length_cons, List.length_nil] at hle
      omega
    · exact le_refl _

theorem codeCut_le_start (r : List Char) (s : Nat) : codeCut r s ≤ s := by
  unfold codeCut
  split
  · exact le_refl s
  · rename_i hc
    push_neg at hc
    rcases rfindI_cases nn r s with h | ⟨i, h, hle, _⟩
    · rw [h] at hc
      exact absurd hc.1 (by decide)
    · rw [h] at hc ⊢
      simp only [nn, List.length_cons, List.length_nil] at hle
      omega

theorem codeBlockScan_le (r : List Char) :
    ∀ (starts : List Nat) (c : Nat), codeBlockScan r starts = some c → c ≤ MAXLEN
  | s :: e :: rest, c, h => by
    rw [codeBlockScan] at h
    split at h
    · rename_i hcond
      cases h
      exact le_trans (codeCut_le_start r s) (le_of_lt hcond.1)
    · exact codeBlockScan_le r rest c h
  | [], _, h => by simp [codeBlockScan] at h
  | [s], _, h => by simp [codeBlockScan] at h

theorem splitCutOf_le (r : List Char) : splitCutOf r ≤ MAXLEN := by
  unfold splitCutOf
  split
  · exact plainCut_le r
  · cases hcs : codeBlockScan r (tickPositions r 0) with
    | none => exact fallbackCut_le r
    | some c => exact codeBlockScan_le r (tickPositions r 0) c hcs

theorem splitStep_parts (r : List Char) :
    (splitStep r).1 ++ (splitStep r).2 = r := by
  simp [splitStep]

theorem splitStep_fst_le (r : List Char) : (splitStep r).1.length ≤ MAXLEN := by
  simp only [splitStep, List.length_take]
  exact le_trans (min_le_left _ _) (splitCutOf_le r)

theorem splitGo_length_le :
    ∀ (fuel : Nat) (r : List Char) (chunks : List (List Char)),
      splitGo fuel r = some chunks → ∀ c ∈ chunks, c.length ≤ MAXLEN
  | 0, r, chunks, h => by simp [splitGo] at h
  | fuel + 1, r, chunks, h => by
    rw [splitGo] at h
    by_cases hE : r.isEmpty
    · rw [if_pos hE] at h
      cases h
      intro c hc
      simp at hc
    · rw [if_neg hE] at h
      by_cases hL : r.length ≤ MAXLEN
      · rw [if_pos hL] at h
        cases h
        intro c hc
        simp at hc
        simpa [hc] using hL
      · rw [if_neg hL] at h
        rcases Option.map_eq_some'.mp h with ⟨cs, hcs, rfl⟩
        intro c hc
        rcases List.mem_cons.mp hc with rfl | hmem
        · exact splitStep_fst_le r
        · exact splitGo_length_le fuel (splitStep r).2 cs hcs c hmem

theorem splitGo_flatten :
    ∀ (fuel : Nat) (r : List Char) (chunks : List (List Char)),
      splitGo fuel r = some chunks → chunks.flatten = r
  | 0, r, chunks, h => by simp [splitGo] at h
  | fuel + 1, r, chunks, h => by
    rw [splitGo] at h
    by_cases hE : r.isEmpty
    · rw [if_pos hE] at h
      cases h
      simpa [List.isEmpty_iff] using hE
    · rw [if_neg hE] at h
      by_cases hL : r.length ≤ MAXLEN
      · rw [if_pos hL] at h
        cases h
        simp
      · rw [if_neg hL] at h
        rcases Option.map_eq_some'.mp h with ⟨cs, hcs, rfl⟩
        rw [List.flatten_cons, splitGo_flatten fuel (splitStep r).2 cs hcs]
        exact splitStep_parts r

/-- C2: every fragment returned by split has length at most
`MAX_MESSAGE_LENGTH` (4000): the paragraph- and sentence-break
back-searches (which add 2 to the found boundary index) and the
code-block-start cuts never produce a longer fragment, and an input of
length at most 4000 is returned as the single fragment equal to the
input. -/
theorem C2_fragment_length (fuel : Nat) (text : List Char) :
    (∀ chunks, split_text_preserve_markdown fuel text = some chunks →
       ∀ c ∈ chunks, c.length ≤ MAXLEN) ∧
    (text.length ≤ MAXLEN → split_text_preserve_markdown fuel text = some [text]) := by
  constructor
  · intro chunks h c hc
    unfold split_text_preserve_markdown at h
    by_cases hL : text.length ≤ MAXLEN
    · rw [if_pos hL] at h
      cases h
      simp at hc
      simpa [hc] using hL
    · rw [if_neg hL] at h
      exact splitGo_length_le fuel text chunks h c hc
  · intro hL
    unfold split_text_preserve_markdown
    rw [if_pos hL]

theorem C2_fragment_length_witness :
    split_text_preserve_markdown 1 ['h', 'i'] = some [['h', 'i']] ∧
    (['h', 'i'] : List Char).length ≤ MAXLEN :=
  ⟨(C2_fragment_length 1 ['h', 'i']).2 (by decide), by decide⟩

/-! ## The non-terminating input -/

theorem rfindI_eq_neg_one (sub text : List Char) (stop : Nat)
    (h : rfindAux sub stop text 0 none = none) : rfindI sub text stop = -1 := by
  unfold rfindI
  rw [h]

theorem tickPositions_tick3_alone (pos : Nat) : tickPositions tick3 pos = [pos] := by
  simp [tick3, tickPositions]

theorem badLoop_length : badLoop.length = 4004 := by
  unfold badLoop
  rw [List.length_append, List.length_append, List.length_replicate]
  rfl

theorem badLoop_ticks : tickPositions badLoop 0 = [0, 4001] := by
  unfold badLoop
  rw [List.append_assoc, tickPositions_tick3,
    tickPositions_replicate 'a' (by decide), tickPositions_tick3_alone]

theorem badLoop_cut : splitCutOf badLoop = 0 := by
  unfold splitCutOf
  rw [badLoop_ticks]
  rw [if_neg (by decide)]
  rw [show codeBlockScan badLoop [0, 4001] = some (codeCut badLoop 0) from by
    rw [codeBlockScan, if_pos (by decide)]]
  show codeCut badLoop 0 = 0
  unfold codeCut
  rw [rfindI_eq_neg_one nn badLoop 0 (rfindAux_past_stop nn 0 badLoop 0 none (by simp [nn]))]
  rw [if_pos (by decide)]

theorem badLoop_step : splitStep badLoop = ([], badLoop) := by
  simp [splitStep, badLoop_cut]

theorem badLoop_ne_nil : ¬ badLoop.isEmpty = true := by
  intro h0
  have := congrArg List.length (List.isEmpty_iff.mp h0)
  rw [badLoop_length] at this
  simp at this

theorem badLoop_go (fuel : Nat) : splitGo fuel badLoop = none := by
  induction fuel with
  | zero => rfl
  | succ n ih =>
    have h2 : (splitStep badLoop).2 = badLoop := by rw [badLoop_step]
    rw [splitGo, if_neg badLoop_ne_nil, if_neg (by rw [badLoop_length]; decide), h2, ih]
    rfl

/-- C1: the claim that the splitting loop always terminates fails on the
code.  On an input whose fenced block opens at position 0 and closes
beyond `MAX_MESSAGE_LENGTH`, the code-block branch cuts at the block
start 0, emitting an empty fragment and leaving the remainder unchanged;
because that branch exits via `break`, the loop counter stays below
`len(code_block_starts) - 1` and the guard at line 339 skips the plain
fall-through cut, so the loop repeats the zero-length cut forever: for
every fuel bound the loop is still running. -/
theorem C1_split_nontermination :
    splitStep badLoop = ([], badLoop) ∧
    ∀ fuel : Nat, split_text_preserve_markdown fuel badLoop = none := by
  refine ⟨badLoop_step, fun fuel => ?_⟩
  unfold split_text_preserve_markdown
  rw [if_neg (by rw [badLoop_length]; decide)]
  exact badLoop_go fuel

/-! ## The whitespace-only remainder input -/

theorem wsText_length : wsText.length = 4002 := by
  unfold wsText
  rw [List.length_append, List.length_replicate]
  rfl

theorem wsText_ticks : tickPositions wsText 0 = [] := by
  unfold wsText
  rw [tickPositions_replicate 'a' (by decide)]
  decide

theorem wsText_rfind_nn : rfindI nn wsText MAXLEN = -1 := by
  refine rfindI_eq_neg_one nn wsText MAXLEN ?_
  rw [show wsText = List.replicate 4000 'a' ++ nn from rfl,
    show nn = '\n' :: ['\n'] from rfl,
    rfindAux_replicate '\n' ['\n'] MAXLEN 'a' (by decide)]
  exact rfindAux_past_stop _ MAXLEN _ (0 + 4000) none (by decide)

theorem wsText_rfind_dotSp : rfindI dotSp wsText MAXLEN = -1 := by
  refine rfindI_eq_neg_one dotSp wsText MAXLEN ?_
  rw [show wsText = List.replicate 4000 'a' ++ nn from rfl,
    show dotSp = '.' :: [' '] from rfl,
    rfindAux_replicate '.' [' '] MAXLEN 'a' (by decide)]
  exact rfindAux_past_stop _ MAXLEN _ (0 + 4000) none (by decide)

theorem wsText_cut : splitCutOf wsText = MAXLEN := by
  unfold splitCutOf
  rw [wsText_ticks]
  rw [if_pos (by decide)]
  unfold plainCut
  rw [wsText_rfind_nn, wsText_rfind_dotSp, if_neg (by decide), if_neg (by decide)]

theorem wsText_take : wsText.take MAXLEN = List.replicate 4000 'a' := by
  unfold wsText
  exact List.take_left' (by rw [List.length_replicate]; rfl)

theorem wsText_drop : wsText.drop MAXLEN = nn := by
  unfold wsText
  exact List.drop_left' (by rw [List.length_replicate]; rfl)

/-- C3 counterexample: the claim that a trailing whitespace-only remainder
after the final cut is discarded is false.  On 4000 letters followed by a
blank line, the code cuts at 4000 and then emits the whitespace-only
remainder as a final fragment, so the concatenation of the fragments is
the whole input, not the input with the trailing whitespace removed. -/
theorem C3_counterexample :
    split_text_preserve_markdown 2 wsText = some [List.replicate 4000 'a', nn] ∧
    List.replicate 4000 'a' ++ nn = wsText ∧
    nn.all isPyWhitespace = true ∧
    wsText ≠ List.replicate 4000 'a' := by
  have hne : ¬ wsText.isEmpty = true := by
    intro h0
    have := congrArg List.length (List.isEmpty_iff.mp h0)
    rw [wsText_length] at this
    simp at this
  refine ⟨?_, rfl, by decide, ?_⟩
  · unfold split_text_preserve_markdown
    rw [if_neg (by rw [wsText_length]; decide)]
    have h1 : (splitStep wsText).1 = List.replicate 4000 'a' := by
      simp only [splitStep]
      rw [wsText_cut, wsText_take]
    have h2 : (splitStep wsText).2 = nn := by
      simp only [splitStep]
      rw [wsText_cut, wsText_drop]
    rw [splitGo, if_neg hne, if_neg (by rw [wsText_length]; decide), h1, h2,
      show splitGo 1 nn = some [nn] from by decide]
    rfl
  · intro h
    have := congrArg List.length h
    rw [wsText_length, List.length_replicate] at this
    simp at this

/-- C3 amended: concatenating the fragments returned by split, in order,
reconstructs the original text exactly; nothing is discarded anywhere
(a trailing whitespace-only remainder becomes the final fragment rather
than being dropped). -/
theorem C3_amended_lossless (fuel : Nat) (text : List Char) (chunks : List (List Char))
    (h : split_text_preserve_markdown fuel text = some chunks) :
    chunks.flatten = text := by
  unfold split_text_preserve_markdown at h
  by_cases hL : text.length ≤ MAXLEN
  · rw [if_pos hL] at h
    cases h
    simp
  · rw [if_neg hL] at h
    exact splitGo_flatten fuel text chunks h

theorem C3_amended_lossless_witness :
    ([['h', 'i']] : List (List Char)).flatten = ['h', 'i'] :=
  C3_amended_lossless 1 ['h', 'i'] [['h', 'i']] (by decide)

/-! ## The code-block-straddling cut (claim C4) -/

/-- C4: when the marker scan of the current remainder finds a first
fenced block `[s, e]` with `s < MAX_MESSAGE_LENGTH < e` (so the default
cut at `MAX_MESSAGE_LENGTH` would fall strictly inside the block), the
loop instead cuts at `codeCut r s`, which is at or before the block start:
either exactly the block start, or the position of a paragraph break that
lies in the second half of the window and strictly before the block
start.  The emitted fragment is the prefix up to that cut, so it never
ends inside the fence. -/
theorem C4_cut_before_block (fuel : Nat) (r : List Char) (s e : Nat) (rest : List Nat)
    (hticks : tickPositions r 0 = s :: e :: rest)
    (hs : s < MAXLEN) (he : MAXLEN < e) (hr : MAXLEN < r.length) :
    splitCutOf r = codeCut r s ∧
    codeCut r s ≤ s ∧
    (codeCut r s = s ∨
      (MAXLEN / 2 ≤ codeCut r s ∧ nn.isPrefixOf (r.drop (codeCut r s)) = true ∧
        codeCut r s + 2 ≤ s)) ∧
    splitGo (fuel + 1) r =
      (splitGo fuel (r.drop (codeCut r s))).map (fun cs => r.take (codeCut r s) :: cs) := by
  have hcut : splitCutOf r = codeCut r s := by
    unfold splitCutOf
    rw [hticks]
    rw [if_neg (by simp)]
    rw [show codeBlockScan r (s :: e :: rest) = some (codeCut r s) from by
      rw [codeBlockScan, if_pos ⟨hs, he⟩]]
  have hchar : codeCut r s ≤ s ∧
      (codeCut r s = s ∨
        (MAXLEN / 2 ≤ codeCut r s ∧ nn.isPrefixOf (r.drop (codeCut r s)) = true ∧
          codeCut r s + 2 ≤ s)) := by
    unfold codeCut
    split
    · exact ⟨le_refl s, Or.inl rfl⟩
    · rename_i hc
      push_neg at hc
      rcases rfindI_cases nn r s with h | ⟨i, h, hle, hpre⟩
      · rw [h] at hc
        exact absurd hc.1 (by decide)
      · rw [h] at hc ⊢
        simp only [nn, List.length_cons, List.length_nil] at hle
        have h2000 : ((MAXLEN : Int) / 2) = 2000 := by decide
        rw [h2000] at hc
        have hint : (2000 : Int) ≤ (i : Int) := hc.2
        have hi : (2000 : Nat) ≤ i := by exact_mod_cast hint
        refine ⟨by omega, Or.inr ⟨by rw [Int.toNat_natCast]; omega, ?_, by rw [Int.toNat_natCast]; omega⟩⟩
        rw [Int.toNat_natCast]
        exact hpre
  refine ⟨hcut, hchar.1, hchar.2, ?_⟩
  rw [splitGo]
  have hnil : ¬ r.isEmpty = true := by
    intro h0
    rw [List.isEmpty_iff.mp h0] at hr
    simp at hr
  rw [if_neg hnil, if_neg (by omega)]
  simp only [splitStep, hcut]

theorem c4text_length : c4text.length = 4303 := by
  unfold c4text
  rw [List.length_append, List.length_append, List.length_append, List.length_append,
    List.length_replicate, List.length_replicate, List.length_replicate]
  rfl

theorem c4tail_length : c4tail.length = 403 := by
  unfold c4tail
  rw [List.length_append, List.length_append, List.length_append,
    List.length_replicate, List.length_replicate]
  rfl

theorem tickPositions_replicate_alone (c : Char) (hc : c ≠ backtick) (n pos : Nat) :
    tickPositions (List.replicate n c) pos = [] := by
  rw [← List.append_nil (List.replicate n c), tickPositions_replicate c hc,
    tickPositions_nil]

theorem c4text_decomp : c4text = List.replicate 3900 'a' ++ c4tail := by
  unfold c4text c4tail
  simp only [List.append_assoc]

theorem c4text_ticks : tickPositions c4text 0 = [3900, 4200] := by
  unfold c4text
  simp only [List.append_assoc]
  rw [tickPositions_replicate 'a' (by decide), tickPositions_tick3,
    tickPositions_replicate 'b' (by decide), tickPositions_tick3,
    tickPositions_replicate_alone 'c' (by decide)]

theorem c4text_codeCut : codeCut c4text 3900 = 3900 := by
  unfold codeCut
  rw [rfindI_eq_neg_one nn c4text 3900 ?_, if_pos (by decide)]
  rw [c4text_decomp, show nn = '\n' :: ['\n'] from rfl,
    rfindAux_replicate '\n' ['\n'] 3900 'a' (by decide)]
  exact rfindAux_past_stop _ 3900 _ (0 + 3900) none (by decide)

theorem c4text_drop : c4text.drop 3900 = c4tail := by
  rw [c4text_decomp]
  exact List.drop_left' (by rw [List.length_replicate])

theorem c4text_take : c4text.take 3900 = List.replicate 3900 'a' := by
  rw [c4text_decomp]
  exact List.take_left' (by rw [List.length_replicate])

theorem c4tail_ne_nil : ¬ c4tail.isEmpty = true := by
  intro h0
  have := congrArg List.length (List.isEmpty_iff.mp h0)
  rw [c4tail_length] at this
  simp at this

theorem c4tail_go : splitGo 1 c4tail = some [c4tail] := by
  rw [splitGo, if_neg c4tail_ne_nil, if_pos (by rw [c4tail_length]; decide)]

theorem C4_cut_before_block_witness :
    splitCutOf c4text = codeCut c4text 3900 ∧
    codeCut c4text 3900 ≤ 3900 ∧
    (codeCut c4text 3900 = 3900 ∨
      (MAXLEN / 2 ≤ codeCut c4text 3900 ∧
        nn.isPrefixOf (c4text.drop (codeCut c4text 3900)) = true ∧
        codeCut c4text 3900 + 2 ≤ 3900)) ∧
    splitGo 2 c4text =
      (splitGo 1 (c4text.drop (codeCut c4text 3900))).map
        (fun cs => c4text.take (codeCut c4text 3900) :: cs) ∧
    split_text_preserve_markdown 2 c4text = some [List.replicate 3900 'a', c4tail] ∧
    (List.replicate 3900 'a').length = 3900 := by
  have h := C4_cut_before_block 1 c4text 3900 4200 [] c4text_ticks (by decide) (by decide)
    (by rw [c4text_length]; decide)
  refine ⟨h.1, h.2.1, h.2.2.1, h.2.2.2, ?_, List.length_replicate 3900 'a'⟩
  unfold split_text_preserve_markdown
  rw [if_neg (by rw [c4text_length]; decide)]
  rw [h.2.2.2, c4text_codeCut, c4text_drop, c4text_take, c4tail_go]
  rfl

/-! ## Escaping: identity on escape-free text, and the counterexamples -/

theorem splitTicks_no_tick :
    ∀ (l cur : List Char), (∀ c ∈ l, c ≠ backtick) → splitTicks cur l = [cur.reverse ++ l]
  | [], cur, _ => by simp [splitTicks]
  | [a], cur, _ => by simp [splitTicks]
  | [a, b], cur, _ => by simp [splitTicks]
  | a :: b :: c :: rest, cur, h => by
    rw [splitTicks, if_neg (by rintro ⟨h1, -, -⟩; exact h a (by simp) h1)]
    rw [splitTicks_no_tick (b :: c :: rest) (a :: cur) (fun x hx => h x (by simp [hx]))]
    simp

theorem replaceChar_absent (c : Char) (repl : List Char) :
    ∀ (l : List Char), (∀ x ∈ l, x ≠ c) → replaceChar c repl l = l
  | [], _ => rfl
  | x :: xs, h => by
    rw [replaceChar, if_neg (h x (by simp)),
      replaceChar_absent c repl xs (fun y hy => h y (by simp [hy]))]

theorem foldl_replace_absent :
    ∀ (cs l : List Char), (∀ c ∈ cs, ∀ x ∈ l, x ≠ c) →
      List.foldl (fun acc c => replaceChar c ['\\', c] acc) l cs = l
  | [], _, _ => rfl
  | c :: cs, l, h => by
    rw [List.foldl_cons, replaceChar_absent c _ l (fun x hx => h c (by simp) x hx),
      foldl_replace_absent cs l (fun d hd x hx => h d (by simp [hd]) x hx)]

theorem escape_part_absent (t : List Char) (h : ∀ c ∈ t, c ∉ escape_chars) :
    escape_part t = t := by
  unfold escape_part
  refine foldl_replace_absent escape_chars t (fun c hc x hx hxc => ?_)
  subst hxc
  exact h x hx hc

theorem escapeParts_single (p : List Char) : escapeParts 0 [p] = [escape_part p] := by
  rw [escapeParts, escapeParts, if_pos (by decide)]

theorem joinTicks_single (p : List Char) : joinTicks [p] = p := rfl

theorem escape_markdown_v2_escape_free (t : List Char)
    (h : ∀ c ∈ t, c ∉ escape_chars) : escape_markdown_v2 t = t := by
  unfold escape_markdown_v2
  rw [splitTicks_no_tick t [] (fun c hc hceq => by
    exact h c hc (hceq ▸ (by decide : backtick ∈ escape_chars)))]
  simp only [List.reverse_nil, List.nil_append]
  rw [escapeParts_single, joinTicks_single]
  exact escape_part_absent t h

/-- C5 counterexample: the escaping operation is neither idempotent nor
fence-marker-count preserving.  Escaping a single dot yields a
backslash-dot pair; escaping again escapes the dot once more, giving a
different string.  And on `fenceCex` (three fence markers), the
language-tag normalization strips whitespace inside the two fenced parts,
merging backtick runs with the separators into a run of ten backticks,
so the escaped text contains four fence markers. -/
theorem C5_counterexample :
    escape_markdown_v2 (escape_markdown_v2 ['.']) ≠ escape_markdown_v2 ['.'] ∧
    fence_count fenceCex = 3 ∧
    fence_count (escape_markdown_v2 fenceCex) = 4 :=
  ⟨by decide, by decide, by decide⟩

/-- C5 amended: the markup-escaping operation is, in general, neither
idempotent (a second application inserts another backslash before each
already-escaped character) nor fence-marker-count preserving (language-tag
normalization strips whitespace inside fences and can merge backtick runs
across the separators); on text containing no character of the 18-element
escape set it is the identity and therefore idempotent. -/
theorem C5_amended_escape_identity (t : List Char) (h : ∀ c ∈ t, c ∉ escape_chars) :
    escape_markdown_v2 t = t ∧
    escape_markdown_v2 (escape_markdown_v2 t) = escape_markdown_v2 t := by
  have h1 := escape_markdown_v2_escape_free t h
  refine ⟨h1, ?_⟩
  rw [h1]
  exact h1

theorem C5_amended_escape_identity_witness :
    escape_markdown_v2 ['h', 'a'] = ['h', 'a'] ∧
    escape_markdown_v2 (escape_markdown_v2 ['h', 'a']) = escape_markdown_v2 ['h', 'a'] :=
  C5_amended_escape_identity ['h', 'a'] (by decide)

/-! ## The escaped-length blow-up (claim C10) -/

theorem replaceChar_replicate_self (c : Char) (repl : List Char) :
    ∀ n : Nat, replaceChar c repl (List.replicate n c) = (List.replicate n repl).flatten
  | 0 => rfl
  | n + 1 => by
    rw [List.replicate_succ, replaceChar, if_pos rfl,
      replaceChar_replicate_self c repl n, List.replicate_succ, List.flatten_cons]

theorem escape_part_dots (n : Nat) :
    escape_part (List.replicate n '.') = (List.replicate n ['\\', '.']).flatten := by
  unfold escape_part
  rw [show escape_chars = ['_', '*', '[', ']', '(', ')', '~', backtick, '>', '#', '+',
    '-', '=', '|', Char.ofNat 123, Char.ofNat 125] ++ ['.', '!'] from by decide]
  rw [List.foldl_append]
  rw [foldl_replace_absent _ (List.replicate n '.') (fun c hc x hx => by
    rw [List.eq_of_mem_replicate hx]
    exact (by decide : ∀ c ∈ (['_', '*', '[', ']', '(', ')', '~', backtick, '>', '#', '+',
      '-', '=', '|', Char.ofNat 123, Char.ofNat 125] : List Char), ('.' : Char) ≠ c) c hc)]
  rw [List.foldl_cons, List.foldl_cons, List.foldl_nil,
    replaceChar_replicate_self '.' ['\\', '.'] n]
  refine replaceChar_absent '!' _ _ (fun x hx => ?_)
  rcases List.mem_flatten.mp hx with ⟨l, hl, hxl⟩
  rw [List.eq_of_mem_replicate hl] at hxl
  fin_cases hxl <;> decide

theorem flatten_replicate_pair_length (n : Nat) :
    ((List.replicate n (['\\', '.'] : List Char)).flatten).length = 2 * n := by
  rw [List.length_flatten, List.map_replicate, List.sum_replicate]
  simp [smul_eq_mul, Nat.mul_comm]

/-- C10: escaping is applied to fragments only after splitting, and can
double a fragment's length, defeating the 4000-character safety margin:
the 3000-dot text is returned by split as a single fragment of length
3000 (at most 4000), yet its escaped form has length 6000, exceeding the
platform's 4096-character message limit. -/
theorem C10_escaped_fragment_overflow :
    split_text_preserve_markdown 1 dots3000 = some [dots3000] ∧
    dots3000.length ≤ MAXLEN ∧
    4096 < (escape_markdown_v2 dots3000).length := by
  refine ⟨?_, by unfold dots3000; rw [List.length_replicate]; decide, ?_⟩
  · unfold split_text_preserve_markdown
    rw [if_pos (by unfold dots3000; rw [List.length_replicate]; decide)]
  · have he : escape_markdown_v2 dots3000 = (List.replicate 3000 (['\\', '.'] : List Char)).flatten := by
      unfold escape_markdown_v2 dots3000
      rw [splitTicks_no_tick _ [] (fun c hc => by rw [List.eq_of_mem_replicate hc]; decide)]
      simp only [List.reverse_nil, List.nil_append]
      rw [escapeParts_single, joinTicks_single]
      exact escape_part_dots 3000
    rw [he, flatten_replicate_pair_length]
    decide

/-! ## The delivery fallback cascade (claim C6) -/

theorem attempt_modes_deliver_lt (ok : Nat → SendMode → Bool) :
    ∀ (chunks : List (List Char)) (i j : Nat), j < i →
      attempt_modes j (deliver_chunks ok i chunks) = []
  | [], _, _, _ => rfl
  | c :: rest, i, j, h => by
    rw [deliver_chunks]
    by_cases h1 : ok i SendMode.markdownV2
    · rw [if_pos h1, attempt_modes, if_neg (by omega)]
      exact attempt_modes_deliver_lt ok rest (i + 1) j (by omega)
    · rw [if_neg h1]
      by_cases h2 : ok i SendMode.plain
      · rw [if_pos h2, attempt_modes, if_neg (by omega), attempt_modes, if_neg (by omega)]
        exact attempt_modes_deliver_lt ok rest (i + 1) j (by omega)
      · rw [if_neg h2, attempt_modes, if_neg (by omega), attempt_modes, if_neg (by omega),
          attempt_modes, attempt_modes]

/-- C6 amended: the delivery loop attempts each fragment in at most two
modes, not three: MarkdownV2 with the escaped payload first, then, on
failure, plain mode with the raw unescaped chunk; at most one
partial-failure notice is ever emitted, and when it is emitted it is the
final event (the remaining fragments are abandoned). -/
theorem C6_amended_two_mode_fallback (ok : Nat → SendMode → Bool) :
    ∀ (chunks : List (List Char)) (i j : Nat),
      (attempt_modes j (deliver_chunks ok i chunks) = [] ∨
        attempt_modes j (deliver_chunks ok i chunks) = [SendMode.markdownV2] ∨
        attempt_modes j (deliver_chunks ok i chunks) =
          [SendMode.markdownV2, SendMode.plain]) ∧
      notice_count (deliver_chunks ok i chunks) ≤ 1 ∧
      (DeliverEvent.failNotice ∈ deliver_chunks ok i chunks →
        (deliver_chunks ok i chunks).getLast? = some DeliverEvent.failNotice)
  | [], i, j =>
    ⟨Or.inl rfl, by rw [deliver_chunks, notice_count]; omega,
     by intro h; simp [deliver_chunks] at h⟩
  | c :: rest, i, j => by
    obtain ⟨ihm, ihn, ihl⟩ := C6_amended_two_mode_fallback ok rest (i + 1) j
    rw [deliver_chunks]
    by_cases h1 : ok i SendMode.markdownV2
    · rw [if_pos h1]
      refine ⟨?_, by rw [notice_count]; exact ihn, ?_⟩
      · rw [attempt_modes]
        by_cases hij : i = j
        · rw [if_pos hij]
          rw [hij] at *
          rw [attempt_modes_deliver_lt ok rest (j + 1) j (by omega)]
          exact Or.inr (Or.inl rfl)
        · rw [if_neg hij]
          exact ihm
      · intro hmem
        have hmem2 : DeliverEvent.failNotice ∈ deliver_chunks ok (i + 1) rest := by
          rcases List.mem_cons.mp hmem with h | h
          · simp at h
          · exact h
        obtain ⟨y, ys, hys⟩ := List.exists_cons_of_ne_nil (List.ne_nil_of_mem hmem2)
        rw [hys, List.getLast?_cons_cons, ← hys]
        exact ihl hmem2
    · rw [if_neg h1]
      by_cases h2 : ok i SendMode.plain
      · rw [if_pos h2]
        refine ⟨?_, by rw [notice_count, notice_count]; exact ihn, ?_⟩
        · rw [attempt_modes]
          by_cases hij : i = j
          · rw [if_pos hij, attempt_modes, if_pos hij]
            rw [hij] at *
            rw [attempt_modes_deliver_lt ok rest (j + 1) j (by omega)]
            exact Or.inr (Or.inr rfl)
          · rw [if_neg hij, attempt_modes, if_neg hij]
            exact ihm
        · intro hmem
          have hmem2 : DeliverEvent.failNotice ∈ deliver_chunks ok (i + 1) rest := by
            rcases List.mem_cons.mp hmem with h | h
            · simp at h
            · rcases List.mem_cons.mp h with h' | h'
              · simp at h'
              · exact h'
          obtain ⟨y, ys, hys⟩ := List.exists_cons_of_ne_nil (List.ne_nil_of_mem hmem2)
          rw [hys, List.getLast?_cons_cons, List.getLast?_cons_cons, ← hys]
          exact ihl hmem2
      · rw [if_neg h2]
        refine ⟨?_, by rw [notice_count, notice_count, notice_count, notice_count], ?_⟩
        · by_cases hij : i = j
          · rw [attempt_modes, if_pos hij, attempt_modes, if_pos hij,
              attempt_modes, attempt_modes]
            exact Or.inr (Or.inr rfl)
          · rw [attempt_modes, if_neg hij, attempt_modes, if_neg hij,
              attempt_modes, attempt_modes]
            exact Or.inl rfl
        · intro _
          rfl

theorem C6_amended_two_mode_fallback_witness :
    (attempt_modes 0 (deliver_chunks (fun _ _ => false) 0 [['x']]) = [] ∨
      attempt_modes 0 (deliver_chunks (fun _ _ => false) 0 [['x']]) = [SendMode.markdownV2] ∨
      attempt_modes 0 (deliver_chunks (fun _ _ => false) 0 [['x']]) =
        [SendMode.markdownV2, SendMode.plain]) ∧
    notice_count (deliver_chunks (fun _ _ => false) 0 [['x']]) ≤ 1 ∧
    (deliver_chunks (fun _ _ => false) 0 [['x']]).getLast? =
      some DeliverEvent.failNotice :=
  ⟨(C6_amended_two_mode_fallback (fun _ _ => false) [['x']] 0 0).1,
   (C6_amended_two_mode_fallback (fun _ _ => false) [['x']] 0 0).2.1,
   (C6_amended_two_mode_fallback (fun _ _ => false) [['x']] 0 0).2.2 (by decide)⟩

/-- C6 counterexample: the claim of a three-mode cascade is false.  With a
transport on which every send fails, the first fragment is attempted
exactly twice — MarkdownV2 with the escaped payload, then plain mode with
the raw chunk — before the single failure notice aborts the remaining
fragments; there is no third (escaped-but-plain) attempt. -/
theorem C6_counterexample :
    deliver_chunks (fun _ _ => false) 0 [['a'], ['b']] =
      [DeliverEvent.attempt 0 SendMode.markdownV2 ['a'] false,
       DeliverEvent.attempt 0 SendMode.plain ['a'] false,
       DeliverEvent.failNotice] ∧
    attempt_modes 0 (deliver_chunks (fun _ _ => false) 0 [['a'], ['b']]) =
      [SendMode.markdownV2, SendMode.plain] ∧
    (attempt_modes 0 (deliver_chunks (fun _ _ => false) 0 [['a'], ['b']])).length = 2 ∧
    attempt_modes 1 (deliver_chunks (fun _ _ => false) 0 [['a'], ['b']]) = [] ∧
    (2 : Nat) ≠ 3 :=
  ⟨by decide, by decide, by decide, by decide, by decide⟩

/-! ## Model resolution (claim C7) -/

/-- C7: for a user with no prior selection, a successful listing that
already contains the default model resolves to the default without a pull
request; when ensuring the default fails but the listing is non-empty,
the first model of the listing is returned; and when ensuring fails with
a failed or empty listing, resolution fails with the no-models-available
error. -/
theorem C7_model_resolution (b : Backend) :
    (b.modelsSuccess = true → DEFAULT_MODEL ∈ b.models →
      get_user_model b none = Except.ok (DEFAULT_MODEL, false)) ∧
    (∀ m rest, (ensure_model_exists b DEFAULT_MODEL).1 = false →
      b.modelsSuccess = true → b.models = m :: rest →
      get_user_model b none = Except.ok (m, (ensure_model_exists b DEFAULT_MODEL).2)) ∧
    ((ensure_model_exists b DEFAULT_MODEL).1 = false →
      (b.modelsSuccess = false ∨ b.models = []) →
      get_user_model b none = Except.error "No models available") := by
  refine ⟨?_, ?_, ?_⟩
  · intro hs hmem
    have he : ensure_model_exists b DEFAULT_MODEL = (true, false) := by
      unfold ensure_model_exists
      rw [if_neg (by rw [hs]; simp), if_pos hmem]
    unfold get_user_model
    rw [he]
    rfl
  · intro m rest hfail hs hm
    unfold get_user_model
    rw [if_neg (by rw [hfail]; simp), hs, hm]
  · intro hfail hcase
    unfold get_user_model
    rw [if_neg (by rw [hfail]; simp)]
    rcases hcase with h | h
    · rw [h]
    · rw [h]
      cases b.modelsSuccess <;> rfl

theorem C7_model_resolution_witness :
    get_user_model ⟨true, ["mistral", "phi3"], fun _ => false⟩ none =
      Except.ok ("mistral", false) ∧
    get_user_model ⟨true, ["llama3", "phi3"], fun _ => false⟩ none =
      Except.ok ("llama3", true) ∧
    get_user_model ⟨true, [], fun _ => false⟩ none =
      Except.error "No models available" := by
  refine ⟨?_, ?_, ?_⟩
  · exact (C7_model_resolution ⟨true, ["mistral", "phi3"], fun _ => false⟩).1 rfl (by decide)
  · have h := (C7_model_resolution ⟨true, ["llama3", "phi3"], fun _ => false⟩).2.1
      "llama3" ["phi3"] (by decide) rfl rfl
    simpa using h
  · exact (C7_model_resolution ⟨true, [], fun _ => false⟩).2.2 (by decide) (Or.inr rfl)

/-! ## Conversation-store invariants (claim C8) -/

theorem lookupConv_updateConv :
    ∀ (convs : List (String × List ChatMsg)) (sid s : String) (h : List ChatMsg),
      lookupConv (updateConv convs sid h) s =
        if s = sid then some h else lookupConv convs s
  | [], sid, s, h => by
    unfold updateConv lookupConv
    by_cases hs : s = sid
    · rw [if_pos hs, List.find?_cons_of_pos _ (by simp [hs]), Option.map_some']
    · rw [if_neg hs, List.find?_cons_of_neg _ (fun ht => hs (of_decide_eq_true ht).symm)]
  | (k, v) :: rest, sid, s, h => by
    unfold updateConv
    by_cases hk : k = sid
    · rw [if_pos hk]
      unfold lookupConv
      by_cases hs : s = sid
      · rw [if_pos hs, List.find?_cons_of_pos _ (by simp [hs]), Option.map_some']
      · rw [List.find?_cons_of_neg _ (fun ht => hs (of_decide_eq_true ht).symm),
          if_neg hs,
          List.find?_cons_of_neg _ (fun ht => hs (hk ▸ (of_decide_eq_true ht)).symm)]
    · rw [if_neg hk]
      unfold lookupConv
      by_cases hkv : k = s
      · rw [List.find?_cons_of_pos _ (by simp [hkv]),
          List.find?_cons_of_pos _ (by simp [hkv]),
          if_neg (by rw [← hkv]; exact fun h' => hk h')]
      · have hf1 : List.find? (fun p => decide (p.1 = s)) ((k, v) :: updateConv rest sid h) =
            List.find? (fun p => decide (p.1 = s)) (updateConv rest sid h) :=
          List.find?_cons_of_neg _ (fun ht => hkv (of_decide_eq_true ht))
        have hf2 : List.find? (fun p => decide (p.1 = s)) ((k, v) :: rest) =
            List.find? (fun p => decide (p.1 = s)) rest :=
          List.find?_cons_of_neg _ (fun ht => hkv (of_decide_eq_true ht))
        rw [hf1, hf2]
        have hrec := lookupConv_updateConv rest sid s h
        unfold lookupConv at hrec
        exact hrec

theorem historyOf_updateConv (convs : List (String × List ChatMsg)) (sid s : String)
    (h : List ChatMsg) :
    historyOf (updateConv convs sid h) s = if s = sid then h else historyOf convs s := by
  unfold historyOf
  rw [lookupConv_updateConv]
  by_cases hs : s = sid
  · rw [if_pos hs, if_pos hs]
    rfl
  · rw [if_neg hs, if_neg hs]

theorem svc_chat_fail_historyOf (convs : List (String × List ChatMsg))
    (model_name message sid s : String) :
    historyOf (svc_chat none convs model_name message sid).1 s = historyOf convs s := by
  unfold svc_chat
  by_cases hin : (lookupConv convs sid).isSome
  · rw [if_pos hin]
  · rw [if_neg hin]
    show historyOf (updateConv convs sid []) s = historyOf convs s
    rw [historyOf_updateConv]
    by_cases hs : s = sid
    · rw [if_pos hs, hs]
      unfold historyOf
      rw [Option.not_isSome_iff_eq_none.mp hin]
      rfl
    · rw [if_neg hs]

theorem svc_chat_init_historyOf (convs : List (String × List ChatMsg)) (sid s : String) :
    historyOf (if (lookupConv convs sid).isSome then convs
      else updateConv convs sid []) s = historyOf convs s := by
  by_cases hin : (lookupConv convs sid).isSome
  · rw [if_pos hin]
  · rw [if_neg hin, historyOf_updateConv]
    by_cases hs : s = sid
    · rw [if_pos hs, hs]
      unfold historyOf
      rw [Option.not_isSome_iff_eq_none.mp hin]
      rfl
    · rw [if_neg hs]

theorem svc_chat_ok_historyOf (reply : String) (convs : List (String × List ChatMsg))
    (model_name message sid s : String) :
    historyOf (svc_chat (some reply) convs model_name message sid).1 s =
      if s = sid then
        historyOf convs s ++ [⟨"user", message⟩, ⟨"assistant", reply⟩]
      else historyOf convs s := by
  unfold svc_chat
  show historyOf (updateConv _ sid _) s = _
  rw [historyOf_updateConv]
  by_cases hs : s = sid
  · rw [if_pos hs, if_pos hs, svc_chat_init_historyOf, hs]
  · rw [if_neg hs, if_neg hs, svc_chat_init_historyOf]

/-- C8: chat histories always hold an even number of messages, appended
in strict user/assistant pairs: the chat operation appends the pair only
when the model call succeeds and leaves every history unchanged when it
fails, and the clear operation always succeeds (also for a session with
no prior messages), resetting the session's sequence to empty while
keeping the session key present rather than deleting it. -/
theorem C8_history_invariants :
    (∀ reply convs model_name message sid,
      (∀ s, Even (historyOf convs s).length) →
      ∀ s, Even (historyOf (svc_chat reply convs model_name message sid).1 s).length) ∧
    (∀ convs model_name message sid s,
      historyOf (svc_chat none convs model_name message sid).1 s = historyOf convs s) ∧
    (∀ reply convs model_name message sid,
      historyOf (svc_chat (some reply) convs model_name message sid).1 sid =
        historyOf convs sid ++ [⟨"user", message⟩, ⟨"assistant", reply⟩]) ∧
    (∀ convs sid,
      (svc_clear_chat_history convs sid).2 = true ∧
      historyOf (svc_clear_chat_history convs sid).1 sid = [] ∧
      (∀ s, s ≠ sid → historyOf (svc_clear_chat_history convs sid).1 s = historyOf convs s)) ∧
    (∀ convs sid, (lookupConv convs sid).isSome →
      (lookupConv (svc_clear_chat_history convs sid).1 sid).isSome) := by
  have hclear1 : ∀ convs sid s, historyOf (svc_clear_chat_history convs sid).1 s =
      if s = sid then [] else historyOf convs s := by
    intro convs sid s
    unfold svc_clear_chat_history
    by_cases hin : (lookupConv convs sid).isSome
    · rw [if_pos hin]
      show historyOf (updateConv convs sid []) s = _
      rw [historyOf_updateConv]
    · rw [if_neg hin]
      show historyOf convs s = _
      by_cases hs : s = sid
      · rw [if_pos hs, hs]
        unfold historyOf
        rw [Option.not_isSome_iff_eq_none.mp hin]
        rfl
      · rw [if_neg hs]
  refine ⟨?_, ?_, ?_, ?_, ?_⟩
  · intro reply convs model_name message sid hEven s
    cases reply with
    | none =>
      rw [svc_chat_fail_historyOf]
      exact hEven s
    | some r =>
      rw [svc_chat_ok_historyOf]
      by_cases hs : s = sid
      · rw [if_pos hs, List.length_append]
        have := hEven s
        rcases this with ⟨k, hk⟩
        exact ⟨k + 1, by simp [hk]; omega⟩
      · rw [if_neg hs]
        exact hEven s
  · intro convs model_name message sid s
    exact svc_chat_fail_historyOf convs model_name message sid s
  · intro reply convs model_name message sid
    rw [svc_chat_ok_historyOf, if_pos rfl]
  · intro convs sid
    refine ⟨rfl, ?_, ?_⟩
    · rw [hclear1, if_pos rfl]
    · intro s hs
      rw [hclear1, if_neg hs]
  · intro convs sid hin
    unfold svc_clear_chat_history
    rw [if_pos hin]
    show (lookupConv (updateConv convs sid []) sid).isSome
    rw [lookupConv_updateConv, if_pos rfl]
    rfl

theorem C8_history_invariants_witness :
    historyOf (svc_chat (some "r") [] "mistral" "hello" "1").1 "1" =
      [⟨"user", "hello"⟩, ⟨"assistant", "r"⟩] ∧
    Even (historyOf (svc_chat (some "r") [] "mistral" "hello" "1").1 "1").length ∧
    (svc_clear_chat_history [] "1").2 = true ∧
    historyOf (svc_clear_chat_history [] "1").1 "1" = [] := by
  refine ⟨?_, ?_, ?_, ?_⟩
  · have h := C8_history_invariants.2.2.1 "r" [] "mistral" "hello" "1"
    simpa [historyOf, lookupConv] using h
  · exact C8_history_invariants.1 (some "r") [] "mistral" "hello" "1"
      (fun s => by simp [historyOf, lookupConv, List.find?]) "1"
  · exact (C8_history_invariants.2.2.2.1 [] "1").1
  · exact (C8_history_invariants.2.2.2.1 [] "1").2.1

/-! ## Size formatting (claim C9) -/

theorem roundHalfEven_close (q : ℚ) : |(roundHalfEven q : ℚ) - q| ≤ 1 / 2 := by
  have h0 : ((Int.floor q : Int) : ℚ) ≤ q := Int.floor_le q
  have h1 : q < (Int.floor q : Int) + 1 := Int.lt_floor_add_one q
  unfold roundHalfEven
  split_ifs with hlt hgt heven
  · rw [abs_le]
    constructor <;> [linarith; linarith]
  · rw [abs_le]
    push_cast
    constructor <;> [linarith; linarith]
  · rw [abs_le]
    constructor <;> [linarith; linarith]
  · rw [abs_le]
    push_cast
    constructor <;> [linarith; linarith]

theorem round2_close (q : ℚ) : |round2 q - q| ≤ 1 / 200 := by
  have h := roundHalfEven_close (q * 100)
  unfold round2
  have heq : (roundHalfEven (q * 100) : ℚ) / 100 - q =
      ((roundHalfEven (q * 100) : ℚ) - q * 100) / 100 := by ring
  rw [heq, abs_div]
  rw [show |(100 : ℚ)| = 100 from by norm_num]
  linarith

/-- C9 counterexample: the claim that any non-positive byte count is
reported as the unknown-size sentinel is false for negative counts.
Python's truthiness check `if size` sends only the exact value `0` to the
sentinel, so a negative byte count of minus one gibibyte is formatted as
the number `-1.0`, not as `"N/A"`. -/
theorem C9_counterexample :
    format_size (-1073741824) = some (-1) ∧ format_size (-1073741824) ≠ none := by
  have hq : ((-1073741824 : Int) : ℚ) / GiB = -1 := by
    rw [GiB]
    norm_num
  have hfloor : Int.floor ((-1 : ℚ) * 100) = -100 := by
    rw [show (-1 : ℚ) * 100 = ((-100 : Int) : ℚ) from by norm_num, Int.floor_intCast]
  have hr : round2 (-1) = -1 := by
    unfold round2 roundHalfEven
    rw [hfloor, if_pos (by push_cast; norm_num)]
    norm_num
  constructor
  · unfold format_size
    rw [if_neg (by norm_num), hq, hr]
  · unfold format_size
    rw [if_neg (by norm_num)]
    simp

/-- C9 amended: a missing size field defaults to `0`, and exactly the
byte count `0` (hence also a missing one) is reported as the
unknown-size sentinel; every nonzero byte count, negative ones included,
is converted to gibibytes by division by `1024^3` and rounded
half-to-even at two decimals, so the reported number differs from the
exact quotient by at most `1/200`. -/
theorem C9_amended_size_formatting (s : Int) :
    entry_size none = 0 ∧
    format_size 0 = none ∧
    (s ≠ 0 → format_size s = some (round2 ((s : ℚ) / GiB)) ∧
      |round2 ((s : ℚ) / GiB) - (s : ℚ) / GiB| ≤ 1 / 200) := by
  refine ⟨rfl, by unfold format_size; rw [if_pos rfl], fun hs => ⟨?_, round2_close _⟩⟩
  unfold format_size
  rw [if_neg hs]

theorem C9_amended_size_formatting_witness :
    entry_size none = 0 ∧
    format_size 0 = none ∧
    format_size 5 = some (round2 ((5 : ℚ) / GiB)) ∧
    |round2 ((5 : ℚ) / GiB) - (5 : ℚ) / GiB| ≤ 1 / 200 := by
  have h := C9_amended_size_formatting 5
  have h5 := h.2.2 (by decide)
  exact ⟨h.1, h.2.1, by exact_mod_cast h5.1, by exact_mod_cast h5.2⟩
